import Mathlib

/-!
Shallow embedding of `rust-benchmark-simple` (`src/lib.rs`): the adaptive
sampling/convergence engine (`Bench::run`), its convergence and timeout
predicates, the final minimum-sample selection (`min_by_key`), the
throughput derivation on `BenchResult`, and the `black_box` anti-elision
sink.

Modelling conventions:
- `f64` values are modelled in exact arithmetic over `ℚ` for the executable
  engine (no rounding); the convergence comparison `rsd < max_rsd`, whose
  source form involves `sqrt` and whose `mean = 0` case yields an IEEE NaN
  comparison (false), is given as the equivalent square-compare Boolean
  `rsdLtB`, and theorem `BenchmarkSimple.convergence_iff` proves it equal to
  the literal `sqrt`-formula of the source over `ℝ`.
- A separate NaN/infinity-aware float model `F` (exact reals plus `nan` and
  signed infinities, no rounding or overflow) transcribes the statistics
  pipeline of the source verbatim (`meanF`, `stdDevF`, `rsdF`) in order to
  settle the zero-mean/NaN behaviour.
- The external timer (`precision` crate) is abstracted as caller-supplied
  streams: per-sample measurements (`ℕ → Sample`) and the whole-second
  wall-clock reading used by the timeout check (`ℕ → ℕ`).
- Machine integers (`u64`, `u128`, `usize`) are `ℕ`; the only place overflow
  could matter for a claim, the `u128` volume products in the throughput
  constructors, carries an explicit `% 2 ^ 128`.
-/

namespace BenchmarkSimple

/-- Model of `std::time::Duration`: seconds plus sub-second nanoseconds,
compared lexicographically (as Rust's derived `Ord` on `Duration` does). -/
structure Duration where
  secs : ℕ
  nanos : ℕ
deriving DecidableEq

/-- Lexicographic order on durations, as Rust compares `Duration`. -/
def Duration.le (a b : Duration) : Prop :=
  a.secs < b.secs ∨ (a.secs = b.secs ∧ a.nanos ≤ b.nanos)

instance : LE Duration := ⟨Duration.le⟩

/-- Boolean form of the duration comparison used inside the run loop. -/
def Duration.leb (a b : Duration) : Bool :=
  decide (a.secs < b.secs) || (decide (a.secs = b.secs) && decide (a.nanos ≤ b.nanos))

/-- Model of `Duration::from_secs`. -/
def Duration.fromSecs (s : ℕ) : Duration := ⟨s, 0⟩

/-- Model of `Options` (src/lib.rs lines 14-30). `max_rsd: f64` is modelled
exactly over `ℚ`; `max_duration` keeps its `Option<Duration>` shape. -/
structure Options where
  iterations : ℕ
  warmup_iterations : ℕ
  min_samples : ℕ
  max_samples : ℕ
  max_rsd : ℚ
  max_duration : Option Duration
  verbose : Bool
deriving DecidableEq

/-- One collected sample, as the run loop observes it: the two projections of
a `BenchResult` that the engine reads, both produced by the external timer.
`secsF` is the value of `as_secs_f64()` (exact, nonnegative for real
durations) and `ns` the value of `as_ns()`. -/
structure Sample where
  secsF : ℚ
  ns : ℕ
deriving DecidableEq

/-- Mean of the collected `as_secs_f64` values (src line 333):
`results.iter().map(as_secs_f64).sum() / results.len()`. -/
def meanQ (values : List ℚ) : ℚ :=
  values.sum / (values.length : ℚ)

/-- Unbiased sample variance (the radicand of src lines 334-339):
`sum((v - mean)^2) / (len - 1)`, with the `usize` subtraction `len - 1`. -/
def sampleVarQ (values : List ℚ) : ℚ :=
  (values.map (fun v => (v - meanQ values) ^ 2)).sum / ((values.length - 1 : ℕ) : ℚ)

/-- The comparison `rsd < max_rsd` of src line 344, where
`rsd = sqrt(sampleVar) * 100 / mean` in `f64` (src lines 334-340), rendered
as an executable square-comparison over `ℚ`: for a nonnegative sample
sequence, `sqrt(V)*100/mean < t` holds iff `0 < t*mean` and
`V*10000 < (t*mean)^2`; the `mean = 0` case (where the `f64` division yields
NaN and the comparison is false) is exactly the failure of `0 < t*mean`.
Theorem `convergence_iff` proves this Boolean equal to the literal
`sqrt`-formula of the source, and `zero_mean_not_converged` ties the
`mean = 0` case to the NaN semantics of the float model `F`. -/
def rsdLtB (values : List ℚ) (maxRsd : ℚ) : Bool :=
  decide (0 < maxRsd * meanQ values ∧
    sampleVarQ values * 10000 < (maxRsd * meanQ values) ^ 2)

/-- The stop-converged condition of src line 344:
`i >= options.min_samples && rsd < options.max_rsd`. -/
def convergedCheck (minSamples : ℕ) (maxRsd : ℚ) (i : ℕ) (values : List ℚ) : Bool :=
  decide (minSamples ≤ i) && rsdLtB values maxRsd

/-- The timeout predicate of src lines 350-359: when `max_duration` is set,
the wall-clock time since the run's start truncated to whole seconds (the
`as_secs` reading `ws`) is turned back into a `Duration` and compared with
`elapsed >= max_duration`; when unset the predicate is never evaluated. -/
def timeoutCheck (maxDuration : Option Duration) (ws : ℕ) : Bool :=
  match maxDuration with
  | some d => Duration.leb d (Duration.fromSecs ws)
  | none => false

/-- Model of `ptr::read_volatile`: a volatile load returns the stored value. -/
def read_volatile {α : Type _} (v : α) : α := v

/-- Model of `mem::forget`: consumes its argument with no effect (no
destructors exist in the pure model). -/
def mem_forget {α : Type _} (_v : α) : Unit := ()

/-- Model of `black_box` (src lines 377-382): a volatile read of the value,
then `mem::forget` of the original, returning the read value. -/
def black_box {α : Type _} (dummy : α) : α :=
  let ret := read_volatile dummy
  let _ := mem_forget dummy
  ret

/-- Observable events of a run: a workload invocation (carrying its
discarded, black-boxed result) or a reading of the external timer. -/
inductive Event (γ : Type) where
  | workCall : γ → Event γ
  | timerRead : Event γ
deriving DecidableEq

/-- True on workload-invocation events. -/
def Event.isWork {γ : Type} : Event γ → Bool
  | Event.workCall _ => true
  | Event.timerRead => false

/-- Model of `Bench::run_once` (src lines 284-299): read the timer, invoke
the workload `iterations` times through `black_box`, read the timer again.
`f k` is the result of the `k`-th workload invocation of the whole run (the
counter `k` threads through warm-up and all samples); the measured elapsed
value itself is supplied by the external timer stream at the call site.
Returns the emitted events and the advanced invocation counter. -/
def run_once {γ : Type} (iterations : ℕ) (f : ℕ → γ) (k : ℕ) : List (Event γ) × ℕ :=
  ⟨Event.timerRead ::
      ((List.range iterations).map fun j => Event.workCall (black_box (f (k + j)))) ++
      [Event.timerRead],
    k + iterations⟩

/-- Outcome of the sampling loop: the event trace, the collected sample
sequence in insertion order, and whether the loop stopped on the timeout
branch. -/
structure LoopOut (γ : Type) where
  trace : List (Event γ)
  samples : List Sample
  timedOut : Bool
deriving DecidableEq

/-- The sampling loop of `Bench::run` (src lines 321-360):
`for i in 1..=max_samples`, each iteration runs `run_once` and appends its
sample; a first sample continues unconditionally (`results.len() <= 1`);
otherwise the convergence check of line 344 may break, and then, only when
`max_duration` is set, the timer is read once more and the timeout check of
lines 350-359 may break. `fuel` is the number of loop indices still to run,
`i` the current 1-based index, `k` the workload-invocation counter, `acc`
the samples collected so far. `smpl i` is the external timer's measurement
of the `i`-th sample and `wallSecs i` its whole-second wall-clock reading. -/
def runLoop {γ : Type} (opts : Options) (smpl : ℕ → Sample) (wallSecs : ℕ → ℕ)
    (f : ℕ → γ) : ℕ → ℕ → ℕ → List Sample → LoopOut γ
  | 0, _, _, acc => ⟨[], acc, false⟩
  | fuel + 1, i, k, acc =>
    let ro := run_once opts.iterations f k
    let acc' := acc ++ [smpl i]
    if acc'.length ≤ 1 then
      let rest := runLoop opts smpl wallSecs f fuel (i + 1) ro.2 acc'
      ⟨ro.1 ++ rest.trace, rest.samples, rest.timedOut⟩
    else if convergedCheck opts.min_samples opts.max_rsd i (acc'.map Sample.secsF) then
      ⟨ro.1, acc', false⟩
    else
      let tEv : List (Event γ) := if opts.max_duration.isSome then [Event.timerRead] else []
      if timeoutCheck opts.max_duration (wallSecs i) then
        ⟨ro.1 ++ tEv, acc', true⟩
      else
        let rest := runLoop opts smpl wallSecs f fuel (i + 1) ro.2 acc'
        ⟨ro.1 ++ tEv ++ rest.trace, rest.samples, rest.timedOut⟩

/-- Model of `Bench::run` (src lines 302-366) up to the final selection:
clamp `max_samples` with `std::cmp::max(1, ..)` (line 307), run the warm-up
loop of lines 316-318 (each result through `black_box`, discarded), read the
start timestamp (line 320), then run the sampling loop. -/
def run {γ : Type} (opts : Options) (smpl : ℕ → Sample) (wallSecs : ℕ → ℕ)
    (f : ℕ → γ) : LoopOut γ :=
  let max_samples := max 1 opts.max_samples
  let warmupEvents : List (Event γ) :=
    (List.range opts.warmup_iterations).map fun j => Event.workCall (black_box (f j))
  let inner := runLoop opts smpl wallSecs f max_samples 1 opts.warmup_iterations []
  ⟨warmupEvents ++ Event.timerRead :: inner.trace, inner.samples, inner.timedOut⟩

/-- Model of `results.into_iter().min_by_key(|r| r.as_ns())` (src line 361):
Rust's `min_by_key` keeps the first of equally-minimal elements, i.e. the
accumulator is replaced only on a strictly smaller key. -/
def minByNs (l : List Sample) : Option Sample :=
  match l with
  | [] => none
  | x :: xs => some (xs.foldl (fun best r => if r.ns < best.ns then r else best) x)

/-- The value `Bench::run` returns: the minimum-`ns` sample (src line 361,
`.unwrap()` modelled as the `Option`). -/
def runResult {γ : Type} (opts : Options) (smpl : ℕ → Sample) (wallSecs : ℕ → ℕ)
    (f : ℕ → γ) : Option Sample :=
  minByNs (run opts smpl wallSecs f).samples

/-- The stable-minimum specification: `r` occurs in `l`, its `ns` is minimal
over all of `l`, and every element strictly before its occurrence has a
strictly larger `ns` (first-occurrence tie-breaking). -/
def IsStableMinNs (l : List Sample) (r : Sample) : Prop :=
  ∃ l1 l2, l = l1 ++ r :: l2 ∧ (∀ s ∈ l, r.ns ≤ s.ns) ∧ ∀ s ∈ l1, r.ns < s.ns

/-- Model of `BenchResult` (src lines 52-57): the `elapsed`/`precision` pair
is collapsed into the externally provided value of `as_ns()`; `options` is
the shared configuration the result carries. -/
structure BenchResult where
  ns : ℕ
  options : Options
deriving DecidableEq

/-- Model of the `Unit` enum of src lines 148-156 (renamed: `Unit` is taken
by Lean's core). -/
inductive ThroughputUnit where
  | none : ThroughputUnit
  | bytes : ThroughputUnit
  | bits : ThroughputUnit
deriving DecidableEq

/-- Model of `Throughput` (src lines 171-175); the `f64` volume is exact. -/
structure Throughput where
  volume : ℚ
  result : BenchResult
  unit : ThroughputUnit
deriving DecidableEq

/-- Model of `BenchResult::throughput` (src lines 99-106):
`volume *= iterations` in `u128`, unit untagged. -/
def BenchResult.throughput (r : BenchResult) (volume : ℕ) : Throughput :=
  let v1 : ℕ := volume * r.options.iterations % 2 ^ 128
  ⟨(v1 : ℚ), r, ThroughputUnit.none⟩

/-- Model of `BenchResult::throughput_bits` (src lines 110-118):
`volume *= iterations; volume *= 8` in `u128`, unit tagged bits. -/
def BenchResult.throughput_bits (r : BenchResult) (volume : ℕ) : Throughput :=
  let v1 : ℕ := volume * r.options.iterations % 2 ^ 128
  let v2 : ℕ := v1 * 8 % 2 ^ 128
  ⟨(v2 : ℚ), r, ThroughputUnit.bits⟩

/-- Model of `BenchResult::throughput_bytes` (src lines 122-130). The source
body multiplies by `iterations` and then by 8 exactly as the bits variant
does (line 124), while tagging the unit as bytes. -/
def BenchResult.throughput_bytes (r : BenchResult) (volume : ℕ) : Throughput :=
  let v1 : ℕ := volume * r.options.iterations % 2 ^ 128
  let v2 : ℕ := v1 * 8 % 2 ^ 128
  ⟨(v2 : ℚ), r, ThroughputUnit.bytes⟩

/-- Model of `Throughput::as_f64` (src lines 179-181):
`volume * 1e9 / max(1, result.as_ns())` in exact arithmetic. -/
def Throughput.as_f64 (t : Throughput) : ℚ :=
  t.volume * 1000000000 / ((max 1 t.result.ns : ℕ) : ℚ)

/-- Exact-arithmetic model of an IEEE-754 `f64` for the statistics pipeline:
a real value, a NaN, or a signed infinity (`inf true` is `+∞`). Rounding,
overflow-to-infinity and signed zeros are not modelled; NaN propagation,
the `0/0 ↦ NaN` and `x/0 ↦ ±∞` rules, `sqrt` of a negative, and the
false-on-NaN ordering are. -/
inductive F where
  | nan : F
  | inf : Bool → F
  | val : ℝ → F

/-- IEEE negation on `F`. -/
noncomputable def F.neg : F → F
  | F.nan => F.nan
  | F.inf p => F.inf (! p)
  | F.val x => F.val (-x)

/-- IEEE addition on `F` (opposite infinities give NaN). -/
noncomputable def F.add : F → F → F
  | F.nan, _ => F.nan
  | _, F.nan => F.nan
  | F.inf p, F.inf q => if p = q then F.inf p else F.nan
  | F.inf p, F.val _ => F.inf p
  | F.val _, F.inf q => F.inf q
  | F.val x, F.val y => F.val (x + y)

/-- IEEE subtraction on `F`. -/
noncomputable def F.sub (a b : F) : F := F.add a (F.neg b)

/-- IEEE multiplication on `F` (`±∞ * 0` gives NaN). -/
noncomputable def F.mul : F → F → F
  | F.nan, _ => F.nan
  | _, F.nan => F.nan
  | F.inf p, F.inf q => F.inf (p == q)
  | F.inf p, F.val x => if x = 0 then F.nan else F.inf (p == decide (0 < x))
  | F.val x, F.inf q => if x = 0 then F.nan else F.inf (q == decide (0 < x))
  | F.val x, F.val y => F.val (x * y)

/-- IEEE division on `F`: `0/0` is NaN, a nonzero finite over zero is a
signed infinity (zeros are unsigned here, read as `+0`). -/
noncomputable def F.div : F → F → F
  | F.nan, _ => F.nan
  | _, F.nan => F.nan
  | F.inf _, F.inf _ => F.nan
  | F.inf p, F.val y => if y = 0 then F.inf p else F.inf (p == decide (0 < y))
  | F.val _, F.inf _ => F.val 0
  | F.val x, F.val y =>
    if y = 0 then (if x = 0 then F.nan else F.inf (decide (0 < x))) else F.val (x / y)

/-- IEEE square root on `F`: NaN on a negative argument. -/
noncomputable def F.sqrt : F → F
  | F.nan => F.nan
  | F.inf p => if p then F.inf true else F.nan
  | F.val x => if x < 0 then F.nan else F.val (Real.sqrt x)

/-- The IEEE `<` on `F`: any comparison against NaN is false. -/
def F.lt : F → F → Prop
  | F.nan, _ => False
  | _, F.nan => False
  | F.inf p, F.inf q => p = false ∧ q = true
  | F.inf p, F.val _ => p = false
  | F.val _, F.inf q => q = true
  | F.val x, F.val y => x < y

/-- The `f64` mean of src line 333 over the float model:
`values.sum::<f64>() / values.len() as f64`. -/
noncomputable def meanF (values : List F) : F :=
  (values.foldl F.add (F.val 0)).div (F.val (values.length : ℝ))

/-- The `f64` standard deviation of src lines 334-339 over the float model:
`sqrt(sum((v - mean)^2) / (len - 1))`, with `powi(2)` as a self-product. -/
noncomputable def stdDevF (values : List F) : F :=
  F.sqrt
    (((values.map fun v => (v.sub (meanF values)).mul (v.sub (meanF values))).foldl
          F.add (F.val 0)).div
      (F.val ((values.length - 1 : ℕ) : ℝ)))

/-- The `f64` relative standard deviation of src line 340 over the float
model: `std_dev * 100.0 / mean`. -/
noncomputable def rsdF (values : List F) : F :=
  ((stdDevF values).mul (F.val 100)).div (meanF values)



theorem Duration.leb_iff (a b : Duration) : Duration.leb a b = true ↔ a ≤ b := by
  show Duration.leb a b = true ↔ Duration.le a b
  simp [Duration.leb, Duration.le]

lemma runLoop_samples_monotone {γ : Type} (opts : Options) (smpl : ℕ → Sample)
    (wallSecs : ℕ → ℕ) (f : ℕ → γ) :
    ∀ (fuel i k : ℕ) (acc : List Sample),
      acc.length ≤ (runLoop opts smpl wallSecs f fuel i k acc).samples.length := by
  intro fuel
  induction fuel with
  | zero => intro i k acc; simp [runLoop]
  | succ n ih =>
    intro i k acc
    simp only [runLoop]
    split
    · exact le_trans (by simp) (ih (i + 1) _ (acc ++ [smpl i]))
    · split
      · simp
      · split
        · simp
        · exact le_trans (by simp) (ih (i + 1) _ (acc ++ [smpl i]))

lemma runLoop_length_le {γ : Type} (opts : Options) (smpl : ℕ → Sample)
    (wallSecs : ℕ → ℕ) (f : ℕ → γ) :
    ∀ (fuel i k : ℕ) (acc : List Sample),
      (runLoop opts smpl wallSecs f fuel i k acc).samples.length ≤ acc.length + fuel := by
  intro fuel
  induction fuel with
  | zero => intro i k acc; simp [runLoop]
  | succ n ih =>
    intro i k acc
    simp only [runLoop]
    split
    · have := ih (i + 1) (run_once opts.iterations f k).2 (acc ++ [smpl i])
      simp only [List.length_append, List.length_cons, List.length_nil] at this ⊢
      omega
    · split
      · simp
      · split
        · simp
        · have := ih (i + 1) (run_once opts.iterations f k).2 (acc ++ [smpl i])
          simp only [List.length_append, List.length_cons, List.length_nil] at this ⊢
          omega

lemma runLoop_length_succ_le {γ : Type} (opts : Options) (smpl : ℕ → Sample)
    (wallSecs : ℕ → ℕ) (f : ℕ → γ) :
    ∀ (fuel i k : ℕ) (acc : List Sample), 1 ≤ fuel →
      acc.length + 1 ≤ (runLoop opts smpl wallSecs f fuel i k acc).samples.length := by
  intro fuel
  cases fuel with
  | zero => intro i k acc h; omega
  | succ n =>
    intro i k acc _
    simp only [runLoop]
    split
    · exact le_trans (by simp) (runLoop_samples_monotone opts smpl wallSecs f n (i + 1) _ (acc ++ [smpl i]))
    · split
      · simp
      · split
        · simp
        · exact le_trans (by simp) (runLoop_samples_monotone opts smpl wallSecs f n (i + 1) _ (acc ++ [smpl i]))

lemma runLoop_min_le {γ : Type} (opts : Options) (smpl : ℕ → Sample)
    (wallSecs : ℕ → ℕ) (f : ℕ → γ) :
    ∀ (fuel i k : ℕ) (acc : List Sample), i = acc.length + 1 →
      (runLoop opts smpl wallSecs f fuel i k acc).timedOut = false →
      min opts.min_samples (acc.length + fuel) ≤
        (runLoop opts smpl wallSecs f fuel i k acc).samples.length := by
  intro fuel
  induction fuel with
  | zero =>
    intro i k acc _ _
    simp [runLoop]
  | succ n ih =>
    intro i k acc hi hto
    simp only [runLoop] at hto ⊢
    by_cases h1 : (acc ++ [smpl i]).length ≤ 1
    · rw [if_pos h1] at hto ⊢
      have := ih (i + 1) (run_once opts.iterations f k).2 (acc ++ [smpl i]) (by simp [hi]) hto
      simp only [List.length_append, List.length_cons, List.length_nil] at this ⊢
      omega
    · rw [if_neg h1] at hto ⊢
      by_cases h2 : convergedCheck opts.min_samples opts.max_rsd i ((acc ++ [smpl i]).map Sample.secsF) = true
      · rw [if_pos h2] at hto ⊢
        have hms : opts.min_samples ≤ i := by
          have := (Bool.and_eq_true _ _).mp h2
          exact of_decide_eq_true this.1
        simp only [List.length_append, List.length_cons, List.length_nil]
        omega
      · rw [if_neg h2] at hto ⊢
        by_cases h3 : timeoutCheck opts.max_duration (wallSecs i) = true
        · rw [if_pos h3] at hto
          simp at hto
        · rw [if_neg h3] at hto ⊢
          have := ih (i + 1) (run_once opts.iterations f k).2 (acc ++ [smpl i]) (by simp [hi]) hto
          simp only [List.length_append, List.length_cons, List.length_nil] at this ⊢
          omega

lemma foldl_min_stable (xs : List Sample) : ∀ x : Sample,
    IsStableMinNs (x :: xs) (xs.foldl (fun best r => if r.ns < best.ns then r else best) x) := by
  induction xs with
  | nil =>
    intro x
    refine ⟨[], [], by simp, ?_, by simp⟩
    intro s hs
    simp only [List.mem_singleton] at hs
    subst hs
    exact le_refl _
  | cons y ys ih =>
    intro x
    simp only [List.foldl_cons]
    by_cases h : y.ns < x.ns
    · rw [if_pos h]
      obtain ⟨l1, l2, hdec, hmin, hstrict⟩ := ih y
      refine ⟨x :: l1, l2, by rw [List.cons_append, ← hdec], ?_, ?_⟩
      · intro s hs
        rcases List.mem_cons.mp hs with rfl | hs'
        · exact le_of_lt (lt_of_le_of_lt (hmin y (List.mem_cons_self y ys)) h)
        · exact hmin s hs'
      · intro s hs
        rcases List.mem_cons.mp hs with rfl | hs'
        · exact lt_of_le_of_lt (hmin y (List.mem_cons_self y ys)) h
        · exact hstrict s hs'
    · rw [if_neg h]
      push_neg at h
      obtain ⟨l1, l2, hdec, hmin, hstrict⟩ := ih x
      cases l1 with
      | nil =>
        simp only [List.nil_append] at hdec
        have hx : x = ys.foldl (fun best r => if r.ns < best.ns then r else best) x := by
          exact (List.cons.injEq _ _ _ _).mp hdec |>.1
        refine ⟨[], y :: ys, by simp [← hx], ?_, by simp⟩
        intro s hs
        rcases List.mem_cons.mp hs with rfl | hs'
        · rw [← hx]
        · rcases List.mem_cons.mp hs' with rfl | hs''
          · rw [← hx]; exact h
          · exact hmin s (List.mem_cons_of_mem x hs'')
      | cons a l1' =>
        simp only [List.cons_append, List.cons.injEq] at hdec
        obtain ⟨rfl, hys⟩ := hdec
        have hra : (ys.foldl (fun best r => if r.ns < best.ns then r else best) x).ns < x.ns :=
          hstrict x (List.mem_cons_self x l1')
        refine ⟨x :: y :: l1', l2, by rw [List.cons_append, List.cons_append, ← hys], ?_, ?_⟩
        · intro s hs
          rcases List.mem_cons.mp hs with rfl | hs'
          · exact hmin s (List.mem_cons_self s ys)
          · rcases List.mem_cons.mp hs' with rfl | hs''
            · exact le_of_lt (lt_of_lt_of_le hra h)
            · exact hmin s (List.mem_cons_of_mem x hs'')
        · intro s hs
          rcases List.mem_cons.mp hs with rfl | hs'
          · exact hra
          · rcases List.mem_cons.mp hs' with rfl | hs''
            · exact lt_of_lt_of_le hra h
            · exact hstrict s (List.mem_cons_of_mem x hs'')

lemma minByNs_stable (l : List Sample) (r : Sample) (h : minByNs l = some r) :
    IsStableMinNs l r := by
  cases l with
  | nil => simp [minByNs] at h
  | cons x xs =>
    simp only [minByNs, Option.some.injEq] at h
    rw [← h]
    exact foldl_min_stable xs x



lemma takeWhile_all_append {α : Type _} (p : α → Bool) :
    ∀ (l1 : List α) (x : α) (l2 : List α), (∀ e ∈ l1, p e = true) → p x = false →
      (l1 ++ x :: l2).takeWhile p = l1 := by
  intro l1
  induction l1 with
  | nil => intro x l2 _ hx; simp [List.takeWhile_cons, hx]
  | cons a l ih =>
    intro x l2 hall hx
    simp only [List.cons_append, List.takeWhile_cons, hall a (List.mem_cons_self a l), if_true]
    rw [ih x l2 (fun e he => hall e (List.mem_cons_of_mem a he)) hx]

/-- C3: over every configuration and every behaviour of the external timer,
the run collects at most the (clamped) `max_samples` samples, and fewer than
`min(min_samples, max_samples)` only if it stopped on the timeout branch
(`max_samples` is the effective cap `max(1, options.max_samples)`, the
spec's "supplied 0 is treated as 1"). -/
theorem run_sample_count_bounds {γ : Type} (opts : Options) (smpl : ℕ → Sample)
    (wallSecs : ℕ → ℕ) (f : ℕ → γ) :
    (run opts smpl wallSecs f).samples.length ≤ max 1 opts.max_samples ∧
      (min opts.min_samples (max 1 opts.max_samples) ≤
          (run opts smpl wallSecs f).samples.length ∨
        (run opts smpl wallSecs f).timedOut = true) := by
  constructor
  · have := runLoop_length_le opts smpl wallSecs f (max 1 opts.max_samples) 1
      opts.warmup_iterations []
    simpa [run] using this
  · by_cases hto : (run opts smpl wallSecs f).timedOut = true
    · exact Or.inr hto
    · left
      have hto' : (runLoop opts smpl wallSecs f (max 1 opts.max_samples) 1
          opts.warmup_iterations []).timedOut = false := by
        simp only [run] at hto
        exact Bool.not_eq_true _ ▸ Bool.eq_false_iff.mpr hto
      have := runLoop_min_le opts smpl wallSecs f (max 1 opts.max_samples) 1
        opts.warmup_iterations [] (by simp) hto'
      simpa [run] using this

/-- C4: whenever the run returns a result, that result occurs in the
collected sample sequence, its elapsed nanoseconds are minimal over the
whole sequence, and every sample inserted before it is strictly slower
(first-occurrence tie-breaking of `min_by_key`). -/
theorem run_result_is_stable_min {γ : Type} (opts : Options) (smpl : ℕ → Sample)
    (wallSecs : ℕ → ℕ) (f : ℕ → γ) (r : Sample)
    (h : runResult opts smpl wallSecs f = some r) :
    IsStableMinNs (run opts smpl wallSecs f).samples r :=
  minByNs_stable _ r h

/-- C5: for every configuration — including `max_samples = 0`, clamped to 1
by `max(1, ..)` — the run collects a nonempty sample sequence, so the final
`min_by_key(..).unwrap()` always yields a result and never panics. -/
theorem run_always_returns {γ : Type} (opts : Options) (smpl : ℕ → Sample)
    (wallSecs : ℕ → ℕ) (f : ℕ → γ) :
    (run opts smpl wallSecs f).samples ≠ [] ∧
      (runResult opts smpl wallSecs f).isSome = true := by
  have h1 : 1 ≤ (run opts smpl wallSecs f).samples.length := by
    have := runLoop_length_succ_le opts smpl wallSecs f (max 1 opts.max_samples) 1
      opts.warmup_iterations [] (le_max_left 1 opts.max_samples)
    simpa [run] using this
  constructor
  · intro hnil
    rw [hnil] at h1
    simp at h1
  · rw [runResult]
    cases hs : (run opts smpl wallSecs f).samples with
    | nil => rw [hs] at h1; simp at h1
    | cons x xs => simp [minByNs]

/-- C7: the timeout predicate fires exactly when `max_duration` is set to
some `d` and the whole-second wall-clock reading, taken as a duration, is at
least `d`; with `max_duration` unset it never fires. -/
theorem timeout_fires_iff (md : Option Duration) (ws : ℕ) :
    (timeoutCheck md ws = true ↔ ∃ d, md = some d ∧ d ≤ Duration.fromSecs ws) ∧
      timeoutCheck none ws = false := by
  refine ⟨?_, rfl⟩
  cases md with
  | none => simp [timeoutCheck]
  | some d => simp [timeoutCheck, Duration.leb_iff]

/-- C9: whenever the clamped sample cap is at least 2, the run collects at
least two samples, whatever `min_samples`, `max_rsd`, `max_duration` and the
timer behaviour are: the first loop iteration continues unconditionally and
both stopping predicates are only reached from the second sample on. -/
theorem run_collects_at_least_two {γ : Type} (opts : Options) (smpl : ℕ → Sample)
    (wallSecs : ℕ → ℕ) (f : ℕ → γ) (h : 2 ≤ max 1 opts.max_samples) :
    2 ≤ (run opts smpl wallSecs f).samples.length := by
  obtain ⟨m, hm⟩ : ∃ m, max 1 opts.max_samples = m + 2 :=
    ⟨max 1 opts.max_samples - 2, by omega⟩
  have key : 2 ≤ (runLoop opts smpl wallSecs f (max 1 opts.max_samples) 1
      opts.warmup_iterations []).samples.length := by
    rw [hm]
    simp only [runLoop]
    have hl : (([] : List Sample) ++ [smpl 1]).length ≤ 1 := by simp
    rw [if_pos hl]
    exact le_trans (by simp)
      (runLoop_length_succ_le opts smpl wallSecs f (m + 1) 2 _ ([] ++ [smpl 1]) (by omega))
  simpa [run] using key

theorem run_collects_at_least_two_witness :
    2 ≤ max 1 (2 : ℕ) ∧
      2 ≤ (run ⟨1, 0, 0, 2, 100, some ⟨0, 0⟩, false⟩ (fun _ => ⟨1, 1⟩) (fun _ => 0)
          (fun _ => (0 : ℕ))).samples.length :=
  ⟨by decide, run_collects_at_least_two _ _ _ _ (by decide)⟩

/-- C10: `black_box` is the identity: the volatile read returns the stored
value unchanged, so routing a workload result through the anti-elision sink
never alters it. -/
theorem black_box_identity {α : Type _} (v : α) : black_box v = v := rfl

/-- C8: the run trace starts with exactly `warmup_iterations` workload
invocations — each carrying its discarded, `black_box`-routed result — and
the first timer event sits immediately after them, so no timing happens
before the warm-up completes and `warmup_iterations = 0` performs none. -/
theorem warmup_exactly_before_timing {γ : Type} (opts : Options) (smpl : ℕ → Sample)
    (wallSecs : ℕ → ℕ) (f : ℕ → γ) :
    ((run opts smpl wallSecs f).trace.takeWhile Event.isWork).length =
        opts.warmup_iterations ∧
      (run opts smpl wallSecs f).trace[opts.warmup_iterations]? =
        some Event.timerRead ∧
      ∀ j, j < opts.warmup_iterations →
        (run opts smpl wallSecs f).trace[j]? = some (Event.workCall (black_box (f j))) := by
  have hW : (run opts smpl wallSecs f).trace =
      ((List.range opts.warmup_iterations).map fun j => Event.workCall (black_box (f j))) ++
        Event.timerRead ::
          (runLoop opts smpl wallSecs f (max 1 opts.max_samples) 1
            opts.warmup_iterations []).trace := rfl
  have hlen : ((List.range opts.warmup_iterations).map
      fun j => Event.workCall (black_box (f j))).length = opts.warmup_iterations := by
    simp
  refine ⟨?_, ?_, ?_⟩
  · rw [hW, takeWhile_all_append]
    · exact hlen
    · intro e he
      obtain ⟨j, _, rfl⟩ := List.mem_map.mp he
      rfl
    · rfl
  · rw [hW, List.getElem?_append_right (by rw [hlen])]
    rw [hlen]
    simp
  · intro j hj
    rw [hW, List.getElem?_append_left (by rw [hlen]; exact hj)]
    rw [List.getElem?_map]
    simp [List.getElem?_range, hj]

lemma castSum_sq (values : List ℚ) (c : ℚ) :
    (((values.map fun v => (v - c) ^ 2).sum : ℚ) : ℝ) =
      (values.map fun v : ℚ => ((v : ℝ) - (c : ℝ)) ^ 2).sum := by
  induction values with
  | nil => simp
  | cons a t ih =>
    simp only [List.map_cons, List.sum_cons, Rat.cast_add, ih]
    push_cast
    ring

lemma sqrt_rsd_lt_iff (V t m : ℝ) (hm : 0 < m) :
    (0 < t * m ∧ V * 10000 < (t * m) ^ 2) ↔ Real.sqrt V * 100 / m < t := by
  rw [div_lt_iff₀ hm]
  constructor
  · rintro ⟨hpos, hlt⟩
    have hc : 0 < t * m / 100 := by linarith
    have hV : V < (t * m / 100) ^ 2 := by nlinarith
    have hs : Real.sqrt V < t * m / 100 := (Real.sqrt_lt' hc).mpr hV
    calc Real.sqrt V * 100 < t * m / 100 * 100 := by nlinarith
      _ = t * m := by ring
  · intro h
    have hnn : (0 : ℝ) ≤ Real.sqrt V * 100 := by positivity
    have hpos : 0 < t * m := lt_of_le_of_lt hnn h
    have hs : Real.sqrt V < t * m / 100 := by linarith
    have hV : V < (t * m / 100) ^ 2 := (Real.sqrt_lt' (by linarith)).mp hs
    exact ⟨hpos, by nlinarith⟩

/-- C2: for every sample sequence with at least two nonnegative elements and
positive sum (equivalently, positive mean — the zero-mean case is the NaN
case settled separately), the stop-converged check of src line 344 holds
exactly when the count reaches `min_samples` and the relative standard
deviation `sqrt(sum((v - mean)^2) / (n - 1)) * 100 / mean` — unbiased `n-1`
divisor — is strictly less than `max_rsd`; equality does not converge. -/
theorem convergence_iff (values : List ℚ) (maxRsd : ℚ) (minSamples : ℕ)
    (h2 : 2 ≤ values.length) (hpos : 0 < values.sum) :
    convergedCheck minSamples maxRsd values.length values = true ↔
      (minSamples ≤ values.length ∧
        Real.sqrt ((values.map fun v : ℚ => ((v : ℝ) -
              (values.sum : ℝ) / (values.length : ℝ)) ^ 2).sum /
            ((values.length : ℝ) - 1)) * 100 /
          ((values.sum : ℝ) / (values.length : ℝ)) < (maxRsd : ℝ)) := by
  have hn : 0 < values.length := lt_of_lt_of_le (by norm_num) h2
  have hn0 : (0 : ℝ) < (values.length : ℝ) := by exact_mod_cast hn
  have hm : (0 : ℝ) < (values.sum : ℝ) / (values.length : ℝ) :=
    div_pos (by exact_mod_cast hpos) hn0
  have hmean_cast : ((meanQ values : ℚ) : ℝ) = (values.sum : ℝ) / (values.length : ℝ) := by
    rw [meanQ]
    push_cast
    ring
  have hvar_cast : ((sampleVarQ values : ℚ) : ℝ) =
      (values.map fun v : ℚ => ((v : ℝ) -
          (values.sum : ℝ) / (values.length : ℝ)) ^ 2).sum /
        ((values.length : ℝ) - 1) := by
    rw [sampleVarQ, Rat.cast_div, castSum_sq]
    simp only [hmean_cast]
    congr 1
    push_cast [Nat.cast_sub (show 1 ≤ values.length by omega)]
    ring
  have hQR : (0 < maxRsd * meanQ values ∧
      sampleVarQ values * 10000 < (maxRsd * meanQ values) ^ 2) ↔
      (0 < (maxRsd : ℝ) * ((values.sum : ℝ) / (values.length : ℝ)) ∧
        ((values.map fun v : ℚ => ((v : ℝ) -
              (values.sum : ℝ) / (values.length : ℝ)) ^ 2).sum /
            ((values.length : ℝ) - 1)) * 10000 <
          ((maxRsd : ℝ) * ((values.sum : ℝ) / (values.length : ℝ))) ^ 2) := by
    rw [← hvar_cast, ← hmean_cast]
    constructor
    · rintro ⟨ha, hb⟩
      exact ⟨by exact_mod_cast ha, by exact_mod_cast hb⟩
    · rintro ⟨ha, hb⟩
      exact ⟨by exact_mod_cast ha, by exact_mod_cast hb⟩
  rw [convergedCheck, Bool.and_eq_true, decide_eq_true_iff, rsdLtB, decide_eq_true_iff]
  refine and_congr_right fun _ => ?_
  rw [hQR]
  exact sqrt_rsd_lt_iff _ _ _ hm

theorem convergence_iff_witness :
    (2 ≤ ([1, 1] : List ℚ).length ∧ 0 < ([1, 1] : List ℚ).sum) ∧
      (convergedCheck 2 5 ([1, 1] : List ℚ).length [1, 1] = true ↔
        (2 ≤ ([1, 1] : List ℚ).length ∧
          Real.sqrt ((([1, 1] : List ℚ).map fun v : ℚ => ((v : ℝ) -
                (([1, 1] : List ℚ).sum : ℝ) / (([1, 1] : List ℚ).length : ℝ)) ^ 2).sum /
              ((([1, 1] : List ℚ).length : ℝ) - 1)) * 100 /
            ((([1, 1] : List ℚ).sum : ℝ) / (([1, 1] : List ℚ).length : ℝ)) < ((5 : ℚ) : ℝ))) :=
  ⟨⟨by decide, by norm_num [List.sum_cons, List.sum_nil]⟩,
    convergence_iff [1, 1] 5 2 (by decide) (by norm_num [List.sum_cons, List.sum_nil])⟩

/-- C1 (the code evaluated at the failing input): with `iterations = 10`, a
per-iteration volume of 100 bytes, and an elapsed time of exactly 1e9 ns,
`throughput_bytes` reports a rate of 8000 — its body multiplies the byte
volume by 8 exactly as `throughput_bits` does (src line 124) — while the
untagged `throughput`, whose multiplier really is 1, reports 1000. -/
theorem throughput_bytes_times_eight :
    ((BenchResult.mk 1000000000 ⟨10, 0, 3, 5, 5, none, false⟩).throughput_bytes 100).as_f64
        = 8000 ∧
      ((BenchResult.mk 1000000000 ⟨10, 0, 3, 5, 5, none, false⟩).throughput 100).as_f64
        = 1000 ∧
      (8000 : ℚ) ≠ 1000 :=
  ⟨by norm_num [BenchResult.throughput_bytes, Throughput.as_f64],
    by norm_num [BenchResult.throughput, Throughput.as_f64], by norm_num⟩

lemma foldl_add_val_replicate_zero : ∀ (n : ℕ) (x : ℝ),
    List.foldl F.add (F.val x) (List.replicate n (F.val 0)) = F.val x := by
  intro n
  induction n with
  | zero => intro x; rfl
  | succ m ih =>
    intro x
    rw [List.replicate_succ, List.foldl_cons]
    show List.foldl F.add (F.val (x + 0)) (List.replicate m (F.val 0)) = F.val x
    rw [add_zero]
    exact ih x

lemma meanF_replicate_zero (n : ℕ) (hn : 2 ≤ n) :
    meanF (List.replicate n (F.val 0)) = F.val 0 := by
  rw [meanF, foldl_add_val_replicate_zero, List.length_replicate]
  have hne : ((n : ℝ)) ≠ 0 := Nat.cast_ne_zero.mpr (by omega)
  simp only [F.div]
  rw [if_neg hne, zero_div]

lemma rsdF_replicate_zero (n : ℕ) (hn : 2 ≤ n) :
    rsdF (List.replicate n (F.val 0)) = F.nan := by
  have hmean := meanF_replicate_zero n hn
  have hstd : stdDevF (List.replicate n (F.val 0)) = F.val 0 := by
    rw [stdDevF, hmean]
    have hmap : (List.replicate n (F.val 0)).map
        (fun v => (v.sub (F.val 0)).mul (v.sub (F.val 0))) =
        List.replicate n (F.val 0) := by
      rw [List.map_replicate]
      congr 1
      show ((F.val 0).sub (F.val 0)).mul ((F.val 0).sub (F.val 0)) = F.val 0
      simp [F.sub, F.neg, F.add, F.mul]
    rw [hmap, foldl_add_val_replicate_zero, List.length_replicate]
    have hne : (((n - 1 : ℕ) : ℝ)) ≠ 0 := Nat.cast_ne_zero.mpr (by omega)
    simp only [F.div]
    rw [if_neg hne, zero_div]
    simp only [F.sqrt]
    rw [if_neg (lt_irrefl (0 : ℝ)), Real.sqrt_zero]
  rw [rsdF, hstd, hmean]
  show F.div ((F.val 0).mul (F.val 100)) (F.val 0) = F.nan
  simp [F.mul, F.div]

/-- C6 counterexample: with two zero-valued samples the mean is zero and the
`f64` RSD of the source pipeline (src lines 333-340) is the NaN produced by
the `0/0` division itself — the NaN does reach the stopping comparison,
where it compares false; there is no explicit zero-mean guard in the
pipeline that would keep it out. -/
theorem rsd_zero_mean_is_nan :
    rsdF [F.val 0, F.val 0] = F.nan ∧ ¬ F.lt (rsdF [F.val 0, F.val 0]) (F.val 5) := by
  have h : rsdF [F.val 0, F.val 0] = F.nan := by
    have hrep : ([F.val 0, F.val 0] : List F) = List.replicate 2 (F.val 0) := rfl
    rw [hrep]
    exact rsdF_replicate_zero 2 (le_refl 2)
  refine ⟨h, ?_⟩
  rw [h]
  intro hq
  exact hq

lemma all_zero_of_sum_zero : ∀ (l : List ℚ), (∀ v ∈ l, 0 ≤ v) → l.sum = 0 → ∀ v ∈ l, v = 0 := by
  intro l
  induction l with
  | nil => intro _ _ v hv; simp at hv
  | cons a t ih =>
    intro hnn hsum v hv
    have hts : 0 ≤ t.sum := List.sum_nonneg fun b hb => hnn b (List.mem_cons_of_mem a hb)
    have ha : 0 ≤ a := hnn a (List.mem_cons_self a t)
    rw [List.sum_cons] at hsum
    have ha0 : a = 0 := by linarith
    have ht0 : t.sum = 0 := by linarith
    rcases List.mem_cons.mp hv with rfl | hv2
    · exact ha0
    · exact ih (fun b hb => hnn b (List.mem_cons_of_mem a hb)) ht0 v hv2

/-- C6 amended: when the mean of the collected elapsed values is zero (for
nonnegative durations: all values zero), the convergence predicate evaluates
to not-converged — but not through an explicit guard: the `f64` RSD is the
NaN produced by the `0/0` division, and the run does not stop only because
the IEEE comparison `NaN < max_rsd` is false. -/
theorem zero_mean_not_converged (values : List ℚ) (minSamples i : ℕ) (maxRsd : ℚ)
    (h2 : 2 ≤ values.length) (hnn : ∀ v ∈ values, 0 ≤ v) (hsum : values.sum = 0) :
    convergedCheck minSamples maxRsd i values = false ∧
      rsdF (values.map fun q : ℚ => F.val (q : ℝ)) = F.nan ∧
      ¬ F.lt (rsdF (values.map fun q : ℚ => F.val (q : ℝ))) (F.val (maxRsd : ℝ)) := by
  have hz : ∀ v ∈ values, v = 0 := all_zero_of_sum_zero values hnn hsum
  have hnan : rsdF (values.map fun q : ℚ => F.val (q : ℝ)) = F.nan := by
    have hrep : values.map (fun q : ℚ => F.val (q : ℝ)) =
        List.replicate values.length (F.val 0) := by
      rw [List.eq_replicate_iff]
      refine ⟨by simp, ?_⟩
      intro b hb
      obtain ⟨v, hv, rfl⟩ := List.mem_map.mp hb
      rw [hz v hv]
      norm_num
    rw [hrep]
    exact rsdF_replicate_zero _ h2
  refine ⟨?_, hnan, ?_⟩
  · simp [convergedCheck, rsdLtB, meanQ, hsum]
  · rw [hnan]
    intro hq
    exact hq

theorem zero_mean_not_converged_witness :
    (2 ≤ ([0, 0] : List ℚ).length ∧ (∀ v ∈ ([0, 0] : List ℚ), 0 ≤ v) ∧
        ([0, 0] : List ℚ).sum = 0) ∧
      (convergedCheck 2 5 2 [0, 0] = false ∧
        rsdF (([0, 0] : List ℚ).map fun q : ℚ => F.val (q : ℝ)) = F.nan ∧
        ¬ F.lt (rsdF (([0, 0] : List ℚ).map fun q : ℚ => F.val (q : ℝ)))
          (F.val ((5 : ℚ) : ℝ))) :=
  ⟨⟨by decide, by norm_num, by norm_num [List.sum_cons, List.sum_nil]⟩,
    zero_mean_not_converged [0, 0] 2 2 5 (by decide) (by norm_num)
      (by norm_num [List.sum_cons, List.sum_nil])⟩

theorem run_result_is_stable_min_witness :
    runResult ⟨1, 0, 4, 3, 100, none, false⟩ (fun i => ⟨(i : ℚ), 10 - i⟩) (fun _ => 0)
        (fun _ => (0 : ℕ)) = some ⟨3, 7⟩ ∧
      IsStableMinNs (run ⟨1, 0, 4, 3, 100, none, false⟩ (fun i => ⟨(i : ℚ), 10 - i⟩)
          (fun _ => 0) (fun _ => (0 : ℕ))).samples ⟨3, 7⟩ :=
  ⟨by simp [runResult, run, runLoop, minByNs, convergedCheck, timeoutCheck],
    run_result_is_stable_min _ _ _ _ _
      (by simp [runResult, run, runLoop, minByNs, convergedCheck, timeoutCheck])⟩

end BenchmarkSimple
